import Mathlib

/-!
Verification of the intrusive circular singly-linked list in `src/lib.rs`
(`Link` / `List`, crate `clist`).

Shallow embedding.  A `Link`'s memory address is modelled by a natural
number (`Ptr`, with `0` playing the role of the null pointer) and the
collection of all `Link.next` slots by one total function `heap : Ptr → Ptr`.
The `List` struct stores `last : Option<Link>` whose inner link's `next`
field points at the current tail; we model it by `last : Option Ptr`
holding exactly that pointer value.

Every public operation of the Rust `impl List` is translated function by
function below.  The `find_previous` loop is not structurally recursive
(the pointer chase can diverge on corrupted states), so it takes an
explicit fuel argument and returns `none` when the fuel is exhausted;
`some r` means the Rust loop terminates with result `r`.
-/

namespace Clist

abbrev Ptr := Nat

/-- The state of the world: all `Link.next` slots (`heap`) and the
`List`'s own `last` field (the sentinel's next-pointer, naming the tail). -/
structure St where
  heap : Ptr → Ptr
  last : Option Ptr

/-- `link.link(next)`: overwrite one next-slot. -/
def setNext (heap : Ptr → Ptr) (a v : Ptr) : Ptr → Ptr :=
  fun p => if p = a then v else heap p

/-- `List::new()`. -/
def new (heap : Ptr → Ptr) : St := ⟨heap, none⟩

/-- `List::is_empty()`. -/
def is_empty (s : St) : Bool := s.last.isNone

/-- `List::lpush(element)`: empty case is `push_initial_element`
(`element.link(element); last = Some(Link::new_linked(element))`);
otherwise `element.link(self.head()); self.tail().link(element)`. -/
def lpush : St → Ptr → St
  | ⟨heap, none⟩, e => ⟨setNext heap e e, some e⟩
  | ⟨heap, some t⟩, e => ⟨setNext (setNext heap e (heap t)) t e, some t⟩

/-- `List::lpop()`: `head = head_ptr; if tail_ptr == head { last = None }
else { tail.link(head.next()) }; Some(head)`. -/
def lpop : St → Option Ptr × St
  | ⟨heap, none⟩ => (none, ⟨heap, none⟩)
  | ⟨heap, some t⟩ =>
    let hd := heap t
    if t = hd then (some hd, ⟨heap, none⟩)
    else (some hd, ⟨setNext heap t (heap hd), some t⟩)

/-- `List::lpeek()`: head is `tail().next()`. -/
def lpeek : St → Option Ptr
  | ⟨_, none⟩ => none
  | ⟨heap, some t⟩ => some (heap t)

/-- `List::rpush(element)`: `lpush(element)` then
`last = Some(Link::new_linked(element))`. -/
def rpush (s : St) (e : Ptr) : St := ⟨(lpush s e).heap, some e⟩

/-- `List::rpeek()`: the tail, named directly by the sentinel. -/
def rpeek : St → Option Ptr
  | ⟨_, none⟩ => none
  | ⟨_, some t⟩ => some t

/-- `List::lpoprpush()`: if non-empty, `self.last().link(self.head())`. -/
def lpoprpush : St → St
  | ⟨heap, none⟩ => ⟨heap, none⟩
  | ⟨heap, some t⟩ => ⟨heap, some (heap t)⟩

/-- The `loop` body of `List::find_previous`, with fuel.  `pos` is the
current cursor, `tailp` the saved `tail_ptr`.  Each iteration reads
`next_ptr = heap pos`, returns `some pos` if it equals `element`, stops
with `none` (not found) if it equals `tailp`, else advances. -/
def find_previous_aux (heap : Ptr → Ptr) (element tailp : Ptr) :
    Ptr → Nat → Option (Option Ptr)
  | _, 0 => none
  | pos, fuel+1 =>
    if heap pos = element then some (some pos)
    else if heap pos = tailp then some none
    else find_previous_aux heap element tailp (heap pos) fuel

/-- `List::find_previous(element)`: returns `None` when empty, else scans
from `tail` with `tail_ptr = tail`. -/
def find_previous (s : St) (e : Ptr) (fuel : Nat) : Option (Option Ptr) :=
  match s.last with
  | none => some none
  | some t => find_previous_aux s.heap e t t fuel

/-- `List::find(element)`: `find_previous(element).and_then(|x| Some(x.next()))`. -/
def find (s : St) (e : Ptr) (fuel : Nat) : Option (Option Ptr) :=
  match find_previous s e fuel with
  | none => none
  | some none => some none
  | some (some x) => some (some (s.heap x))

/-- `List::remove(element)`: empty ⇒ `None`; `head_ptr == element` ⇒
`lpop()`; else `find_previous(element).and_then(|x| { x.link(x.next().next());
Some(element) })`. -/
def remove (s : St) (e : Ptr) (fuel : Nat) : Option (Option Ptr × St) :=
  match s.last with
  | none => some (none, s)
  | some t =>
    if s.heap t = e then some (lpop s)
    else
      match find_previous_aux s.heap e t t fuel with
      | none => none
      | some none => some (none, s)
      | some (some x) => some (some e, ⟨setNext s.heap x (s.heap (s.heap x)), some t⟩)

/-- `List::rpop()`: empty ⇒ `None`, else `remove(self.tail())`. -/
def rpop (s : St) (fuel : Nat) : Option (Option Ptr × St) :=
  match s.last with
  | none => some (none, s)
  | some t => remove s t fuel

/-- Push a whole sequence with `lpush`, left to right. -/
def lpushAll (s : St) (xs : List Ptr) : St := xs.foldl lpush s

/-- Call `lpop` `n` times, collecting the returned values. -/
def lpops (s : St) : Nat → List (Option Ptr) × St
  | 0 => ([], s)
  | k+1 =>
    let p := lpop s
    let q := lpops p.2 k
    (p.1 :: q.1, q.2)

/-- Iterate `lpoprpush` `n` times. -/
def rotN (s : St) : Nat → St
  | 0 => s
  | n+1 => lpoprpush (rotN s n)

/-! ## The ring invariant -/

/-- `Walk heap pos vs`: starting at `pos` and repeatedly following
next-slots, the successive values read are exactly `vs`. -/
def Walk (heap : Ptr → Ptr) : Ptr → List Ptr → Prop
  | _, [] => True
  | pos, v :: vs => heap pos = v ∧ Walk heap v vs

def walkDec (heap : Ptr → Ptr) : (pos : Ptr) → (vs : List Ptr) →
    Decidable (Walk heap pos vs)
  | _, [] => isTrue trivial
  | pos, v :: vs => @instDecidableAnd _ _ (Nat.decEq (heap pos) v) (walkDec heap v vs)

instance (heap : Ptr → Ptr) (pos : Ptr) (vs : List Ptr) :
    Decidable (Walk heap pos vs) := walkDec heap pos vs

/-- The data-model invariant, relative to the claimed member list `ms`
in head-to-tail order.  Empty list iff the sentinel is absent; otherwise
the sentinel names the tail (= last of `ms`), the members are pairwise
distinct, and walking next-slots from the tail reads back exactly `ms`
(tail's slot names the head, each member's slot names its successor,
the last step closing the unique n-cycle). -/
def invAux (heap : Ptr → Ptr) : Option Ptr → List Ptr → Prop
  | none, ms => ms = []
  | some t, ms => ms ≠ [] ∧ ms.getLast? = some t ∧ ms.Nodup ∧ Walk heap t ms

def invAuxDec (heap : Ptr → Ptr) : (o : Option Ptr) → (ms : List Ptr) →
    Decidable (invAux heap o ms)
  | none, ms => inferInstanceAs (Decidable (ms = []))
  | some t, ms =>
    inferInstanceAs (Decidable (ms ≠ [] ∧ ms.getLast? = some t ∧ ms.Nodup ∧ Walk heap t ms))

instance (heap : Ptr → Ptr) (o : Option Ptr) (ms : List Ptr) :
    Decidable (invAux heap o ms) := invAuxDec heap o ms

/-- `Inv s ms`: the list state `s` holds exactly the members `ms`
(head first, tail last) and satisfies the ring invariant. -/
def Inv (s : St) (ms : List Ptr) : Prop := invAux s.heap s.last ms

instance (s : St) (ms : List Ptr) : Decidable (Inv s ms) :=
  invAuxDec s.heap s.last ms

/-- Last element of `pos :: vs`. -/
def lastD (vs : List Ptr) (d : Ptr) : Ptr :=
  match vs with
  | [] => d
  | v :: vs => lastD vs v

/-! ## Concrete example states -/

/-- Initial contents of all next-slots: everything unset (null). -/
def exHeap : Ptr → Ptr := fun _ => 0

/-- An empty list. -/
def exEmpty : St := new exHeap

/-- The one-element list `[1]`, built by `rpush`. -/
def exOne : St := rpush exEmpty 1

/-- The two-element list `[1, 2]` (head `1`, tail `2`), built by `rpush`. -/
def exTwo : St := rpush exOne 2

/-- The result of `rpop` on the two-element list. -/
def rpopTwo : Option (Option Ptr × St) := rpop exTwo 5

/-- The list state left behind by that `rpop`. -/
def rpopTwoSt : St := (rpopTwo.map Prod.snd).getD exTwo

/-! ## Basic lemmas -/

theorem setNext_same (heap : Ptr → Ptr) (a v : Ptr) : setNext heap a v a = v := by
  simp [setNext]

theorem setNext_other (heap : Ptr → Ptr) (a v p : Ptr) (h : p ≠ a) :
    setNext heap a v p = heap p := by
  simp [setNext, h]

theorem walk_nil (heap : Ptr → Ptr) (pos : Ptr) : Walk heap pos [] := trivial

theorem walk_cons (heap : Ptr → Ptr) (pos v : Ptr) (vs : List Ptr) :
    Walk heap pos (v :: vs) ↔ heap pos = v ∧ Walk heap v vs := Iff.rfl

/-- The positions a walk reads from are all of `pos :: vs` except the last
value; if the two heaps agree there, the walk transfers. -/
theorem walk_congr (heap heap' : Ptr → Ptr) :
    ∀ (vs : List Ptr) (pos : Ptr), Walk heap pos vs →
      (∀ p ∈ (pos :: vs).dropLast, heap' p = heap p) → Walk heap' pos vs := by
  intro vs
  induction vs with
  | nil => exact fun pos _ _ => trivial
  | cons v vs ih =>
    intro pos hw hag
    have hdl : (pos :: v :: vs).dropLast = pos :: (v :: vs).dropLast := rfl
    rw [hdl] at hag
    refine ⟨?_, ih v hw.2 ?_⟩
    · rw [hag pos (List.mem_cons_self pos _)]
      exact hw.1
    · exact fun p hp => hag p (List.mem_cons_of_mem pos hp)

theorem lastD_cons (v d : Ptr) (vs : List Ptr) : lastD (v :: vs) d = lastD vs v := rfl

theorem getLast?_eq_lastD : ∀ (vs : List Ptr) (v : Ptr),
    (v :: vs).getLast? = some (lastD vs v) := by
  intro vs
  induction vs with
  | nil => intro v; rfl
  | cons w ws ih =>
    intro v
    rw [List.getLast?_cons_cons, ih w, lastD_cons]

theorem dropLast_lastD : ∀ (vs : List Ptr) (v : Ptr),
    (v :: vs).dropLast ++ [lastD vs v] = v :: vs := by
  intro vs
  induction vs with
  | nil => intro v; rfl
  | cons w ws ih =>
    intro v
    have hdl : (v :: w :: ws).dropLast = v :: (w :: ws).dropLast := rfl
    rw [hdl, lastD_cons, List.cons_append, ih w]

theorem walk_append_left (heap : Ptr → Ptr) :
    ∀ (l1 l2 : List Ptr) (pos : Ptr), Walk heap pos (l1 ++ l2) → Walk heap pos l1 := by
  intro l1
  induction l1 with
  | nil => exact fun _ _ _ => trivial
  | cons v vs ih =>
    intro l2 pos hw
    exact ⟨hw.1, ih l2 v hw.2⟩

theorem walk_snoc (heap : Ptr → Ptr) :
    ∀ (vs : List Ptr) (pos x : Ptr), Walk heap pos vs →
      heap (lastD vs pos) = x → Walk heap pos (vs ++ [x]) := by
  intro vs
  induction vs with
  | nil => exact fun pos x _ hx => ⟨hx, trivial⟩
  | cons v vs ih =>
    intro pos x hw hx
    exact ⟨hw.1, ih v x hw.2 hx⟩

/-! ## The `find_previous` scan -/

/-- Whatever the state, when the scan returns a predecessor `p`, then
`p`'s next-slot names the searched element (that is the return test). -/
theorem aux_found_heap :
    ∀ (fuel : Nat) (heap : Ptr → Ptr) (e tp pos p : Ptr),
      find_previous_aux heap e tp pos fuel = some (some p) → heap p = e := by
  intro fuel
  induction fuel with
  | zero =>
    intro heap e tp pos p h
    exact absurd h (by simp [find_previous_aux])
  | succ n ih =>
    intro heap e tp pos p h
    simp only [find_previous_aux] at h
    by_cases h1 : heap pos = e
    · rw [if_pos h1] at h
      obtain rfl : pos = p := by injection h with h; injection h
      exact h1
    · rw [if_neg h1] at h
      by_cases h2 : heap pos = tp
      · rw [if_pos h2] at h
        injection h with h
        exact absurd h (by simp)
      · rw [if_neg h2] at h
        exact ih heap e tp (heap pos) p h

/-- If the walk from `pos` reads values `vs` and then `tp`, none of `vs`
being the element or `tp`, the scan stops with "not found". -/
theorem aux_not_found (heap : Ptr → Ptr) (e tp : Ptr) :
    ∀ (vs : List Ptr) (pos : Ptr) (fuel : Nat),
      Walk heap pos (vs ++ [tp]) → e ∉ vs → e ≠ tp → tp ∉ vs →
      vs.length < fuel → find_previous_aux heap e tp pos fuel = some none := by
  intro vs
  induction vs with
  | nil =>
    intro pos fuel hw _ hetp _ hf
    obtain ⟨h1, -⟩ := hw
    cases fuel with
    | zero => omega
    | succ n =>
      have hne : ¬ heap pos = e := by
        rw [h1]; exact fun hh => hetp hh.symm
      simp only [find_previous_aux]
      rw [if_neg hne, if_pos h1]
  | cons v vs ih =>
    intro pos fuel hw he hetp hvtp hf
    obtain ⟨h1, h2⟩ := hw
    cases fuel with
    | zero => simp at hf
    | succ n =>
      have hv_e : ¬ heap pos = e := by
        rw [h1]; intro hh
        exact he (hh ▸ List.mem_cons_self v vs)
      have hv_tp : ¬ heap pos = tp := by
        rw [h1]; intro hh
        exact hvtp (hh ▸ List.mem_cons_self v vs)
      simp only [find_previous_aux]
      rw [if_neg hv_e, if_neg hv_tp, h1]
      refine ih v n h2 (fun hh => he (List.mem_cons_of_mem v hh)) hetp
        (fun hh => hvtp (List.mem_cons_of_mem v hh)) ?_
      simpa using Nat.lt_of_succ_lt_succ (by simpa using hf)

/-- If the walk from `pos` reads values `vs` and then the element, none of
`vs` being the element or `tp`, the scan finds a predecessor. -/
theorem aux_found (heap : Ptr → Ptr) (e tp : Ptr) :
    ∀ (vs : List Ptr) (pos : Ptr) (fuel : Nat),
      Walk heap pos (vs ++ [e]) → e ∉ vs → tp ∉ vs → vs.length < fuel →
      ∃ p, find_previous_aux heap e tp pos fuel = some (some p) ∧ heap p = e := by
  intro vs
  induction vs with
  | nil =>
    intro pos fuel hw _ _ hf
    obtain ⟨h1, -⟩ := hw
    cases fuel with
    | zero => omega
    | succ n =>
      refine ⟨pos, ?_, h1⟩
      simp only [find_previous_aux]
      rw [if_pos h1]
  | cons v vs ih =>
    intro pos fuel hw he hvtp hf
    obtain ⟨h1, h2⟩ := hw
    cases fuel with
    | zero => simp at hf
    | succ n =>
      have hv_e : ¬ heap pos = e := by
        rw [h1]; intro hh
        exact he (hh ▸ List.mem_cons_self v vs)
      have hv_tp : ¬ heap pos = tp := by
        rw [h1]; intro hh
        exact hvtp (hh ▸ List.mem_cons_self v vs)
      simp only [find_previous_aux]
      rw [if_neg hv_e, if_neg hv_tp, h1]
      refine ih v n h2 (fun hh => he (List.mem_cons_of_mem v hh))
        (fun hh => hvtp (List.mem_cons_of_mem v hh)) ?_
      simpa using Nat.lt_of_succ_lt_succ (by simpa using hf)

/-- Scan over a well-formed ring, element absent: "not found". -/
theorem inv_scan_not_mem (heap : Ptr → Ptr) (t : Ptr) (ms : List Ptr) (e : Ptr)
    (fuel : Nat) (hms : ms ≠ []) (hlast : ms.getLast? = some t) (hnd : ms.Nodup)
    (hw : Walk heap t ms) (he : e ∉ ms) (hf : ms.length ≤ fuel) :
    find_previous_aux heap e t t fuel = some none := by
  have hsplit : ms.dropLast ++ [t] = ms :=
    List.dropLast_append_getLast? t (Option.mem_def.mpr hlast)
  have htmem : t ∈ ms := by
    rw [← hsplit]
    exact List.mem_append_right _ (List.mem_singleton_self t)
  refine aux_not_found heap e t ms.dropLast t fuel ?_ ?_ ?_ ?_ ?_
  · rw [hsplit]; exact hw
  · exact fun hh => he ((List.dropLast_sublist ms).subset hh)
  · exact fun hh => he (hh ▸ htmem)
  · rw [← hsplit] at hnd
    have hd := (List.nodup_append.mp hnd).2.2
    exact fun hh => hd hh (List.mem_singleton_self t)
  · have h1 : ms.dropLast.length = ms.length - 1 := List.length_dropLast ms
    have h2 : 0 < ms.length := List.length_pos.mpr hms
    omega

/-- Scan over a well-formed ring, element present: a predecessor is found
and its next-slot names the element. -/
theorem inv_scan_mem (heap : Ptr → Ptr) (t : Ptr) (ms : List Ptr) (e : Ptr)
    (fuel : Nat) (hlast : ms.getLast? = some t) (hnd : ms.Nodup)
    (hw : Walk heap t ms) (he : e ∈ ms) (hf : ms.length ≤ fuel) :
    ∃ p, find_previous_aux heap e t t fuel = some (some p) ∧ heap p = e := by
  obtain ⟨vs, rest, rfl⟩ := List.append_of_mem he
  have hnd' := List.nodup_append.mp hnd
  have hdisj := hnd'.2.2
  have hevs : e ∉ vs := fun hh => hdisj hh (List.mem_cons_self e rest)
  have htright : t ∈ e :: rest := by
    rw [List.getLast?_append_cons] at hlast
    have := List.dropLast_append_getLast? t (Option.mem_def.mpr hlast)
    rw [← this]
    exact List.mem_append_right _ (List.mem_singleton_self t)
  have htvs : t ∉ vs := fun hh => hdisj hh htright
  have hw' : Walk heap t (vs ++ [e]) := by
    refine walk_append_left heap (vs ++ [e]) rest t ?_
    rw [List.append_assoc, List.singleton_append]
    exact hw
  refine aux_found heap e t vs t fuel hw' hevs htvs ?_
  have : (vs ++ e :: rest).length = vs.length + rest.length + 1 := by
    simp [List.length_append]
    omega
  omega

/-! ## Preservation of the invariant by the O(1) operations -/

theorem mem_of_getLast?_eq (ms : List Ptr) (t : Ptr) (hlast : ms.getLast? = some t) :
    t ∈ ms := by
  have hsplit := List.dropLast_append_getLast? t (Option.mem_def.mpr hlast)
  rw [← hsplit]
  exact List.mem_append_right _ (List.mem_singleton_self t)

theorem not_mem_dropLast_of_nodup (ms : List Ptr) (t : Ptr) (hnd : ms.Nodup)
    (hlast : ms.getLast? = some t) : t ∉ ms.dropLast := by
  have hsplit := List.dropLast_append_getLast? t (Option.mem_def.mpr hlast)
  rw [← hsplit] at hnd
  exact fun hh => (List.nodup_append.mp hnd).2.2 hh (List.mem_singleton_self t)

/-- `lpush` turns a ring over `ms` into a ring over `e :: ms` (new head). -/
theorem lpush_inv (s : St) (ms : List Ptr) (e : Ptr)
    (hInv : Inv s ms) (he : e ∉ ms) : Inv (lpush s e) (e :: ms) := by
  obtain ⟨heap, last⟩ := s
  cases last with
  | none =>
    have hms : ms = [] := by simpa [Inv, invAux] using hInv
    subst hms
    simp [Inv, invAux, lpush, Walk, setNext]
  | some t =>
    simp only [Inv, invAux] at hInv
    obtain ⟨hne, hlast, hnd, hw⟩ := hInv
    obtain ⟨m, tl, rfl⟩ : ∃ m tl, ms = m :: tl := by
      cases ms with
      | nil => exact absurd rfl hne
      | cons m tl => exact ⟨m, tl, rfl⟩
    have htm : t ∈ m :: tl := mem_of_getLast?_eq _ t hlast
    have het : e ≠ t := fun hh => he (hh ▸ htm)
    simp only [Inv, invAux, lpush]
    refine ⟨by simp, ?_, ?_, ?_, ?_, ?_⟩
    · rw [List.getLast?_cons_cons]
      exact hlast
    · exact List.nodup_cons.mpr ⟨he, hnd⟩
    · -- heap' t = e
      exact setNext_same _ t e
    · -- heap' e = m  (old head)
      rw [setNext_other _ _ _ e het, setNext_same]
      exact hw.1
    · -- Walk heap' m tl, only slots e and t were rewritten
      refine walk_congr heap _ tl m hw.2 ?_
      intro p hp
      have hpml : p ∈ (m :: tl).dropLast := hp
      have hpt : p ≠ t :=
        fun hh => not_mem_dropLast_of_nodup _ t hnd hlast (hh ▸ hpml)
      have hpe : p ≠ e :=
        fun hh => he (hh ▸ (List.dropLast_sublist (m :: tl)).subset hpml)
      rw [setNext_other _ _ _ p hpt, setNext_other _ _ _ p hpe]

/-- `lpop` on a non-empty ring returns the head and leaves a ring over
the remaining members. -/
theorem lpop_inv (s : St) (m : Ptr) (tl : List Ptr) (hInv : Inv s (m :: tl)) :
    (lpop s).1 = some m ∧ Inv (lpop s).2 tl := by
  obtain ⟨heap, last⟩ := s
  cases last with
  | none => simp [Inv, invAux] at hInv
  | some t =>
    simp only [Inv, invAux] at hInv
    obtain ⟨-, hlast, hnd, hw⟩ := hInv
    obtain ⟨hw1, hw2⟩ := hw
    have hmtl : m ∉ tl := (List.nodup_cons.mp hnd).1
    by_cases htm : t = m
    · -- single-element case: head == tail, the sentinel is cleared
      have htl : tl = [] := by
        cases tl with
        | nil => rfl
        | cons w ws =>
          rw [List.getLast?_cons_cons] at hlast
          exact absurd (htm ▸ mem_of_getLast?_eq _ t hlast) hmtl
      subst htl
      have hcond : t = heap t := by rw [hw1]; exact htm
      have h1 : lpop ⟨heap, some t⟩ = (some (heap t), ⟨heap, none⟩) := by
        simp only [lpop, if_pos hcond]
      rw [h1]
      exact ⟨by rw [hw1], by simp [Inv, invAux]⟩
    · have hcond : ¬ t = heap t := fun hh => htm (hh.trans hw1)
      simp only [lpop, if_neg hcond]
      refine ⟨by rw [hw1], ?_⟩
      obtain ⟨w, ws, rfl⟩ : ∃ w ws, tl = w :: ws := by
        cases tl with
        | nil =>
          rw [getLast?_eq_lastD] at hlast
          injection hlast with h
          exact absurd h.symm htm
        | cons w ws => exact ⟨w, ws, rfl⟩
      rw [List.getLast?_cons_cons] at hlast
      have hnd' : (w :: ws).Nodup := (List.nodup_cons.mp hnd).2
      simp only [Inv, invAux]
      refine ⟨by simp, hlast, hnd', ?_, ?_⟩
      · -- heap' t = w : the tail is relinked to the new head
        rw [setNext_same, hw1]
        exact hw2.1
      · -- Walk heap' w ws : only slot t was rewritten, t = getLast tl
        refine walk_congr heap _ ws w hw2.2 ?_
        intro p hp
        exact setNext_other _ _ _ p
          (fun hh => not_mem_dropLast_of_nodup _ t hnd' hlast (hh ▸ hp))

/-- `lpoprpush` rotates: the ring is untouched, the sentinel moves to the
old head, so the member list rotates by one. -/
theorem lpoprpush_inv (s : St) (ms : List Ptr) (hInv : Inv s ms) (hne : ms ≠ []) :
    Inv (lpoprpush s) (ms.rotate 1) ∧ (lpoprpush s).heap = s.heap := by
  obtain ⟨heap, last⟩ := s
  cases last with
  | none => exact absurd (by simpa [Inv, invAux] using hInv) hne
  | some t =>
    simp only [Inv, invAux] at hInv
    obtain ⟨-, hlast, hnd, hw⟩ := hInv
    obtain ⟨m, tl, rfl⟩ : ∃ m tl, ms = m :: tl := by
      cases ms with
      | nil => exact absurd rfl hne
      | cons m tl => exact ⟨m, tl, rfl⟩
    refine ⟨?_, rfl⟩
    have hrot : (m :: tl).rotate 1 = tl ++ [m] := by
      rw [List.rotate_cons_succ, List.rotate_zero]
    rw [hrot]
    cases tl with
    | nil =>
      -- one element: rotate is the identity (as a set) and heap t = t
      rw [getLast?_eq_lastD] at hlast
      obtain rfl : m = t := Option.some.inj hlast
      simp only [lpoprpush, Inv, invAux, hw.1]
      exact ⟨by simp, rfl, hnd, hw⟩
    | cons w ws =>
      rw [List.getLast?_cons_cons] at hlast
      simp only [lpoprpush, Inv, invAux, hw.1]
      refine ⟨by simp, ?_, ?_, ?_⟩
      · rw [List.getLast?_append_of_ne_nil _ (by simp)]
        rfl
      · rw [← hrot]
        exact List.nodup_rotate.mpr hnd
      · -- Walk heap m (w :: ws ++ [m]) from Walk heap t (m :: w :: ws)
        refine walk_snoc heap (w :: ws) m m hw.2 ?_
        rw [lastD_cons]
        have hlt : lastD ws w = t := by
          have h2 := getLast?_eq_lastD ws w
          rw [h2] at hlast
          injection hlast
        rw [hlt]
        exact hw.1

theorem st_ext (a b : St) (h1 : a.heap = b.heap) (h2 : a.last = b.last) : a = b := by
  obtain ⟨ah, al⟩ := a
  obtain ⟨bh, bl⟩ := b
  cases h1
  cases h2
  rfl

theorem inv_nil_last (s : St) (h : Inv s []) : s.last = none := by
  obtain ⟨heap, last⟩ := s
  cases last with
  | none => rfl
  | some t => simp [Inv, invAux] at h

theorem inv_last_getLast (s : St) (ms : List Ptr) (h : Inv s ms) (hne : ms ≠ []) :
    s.last = ms.getLast? := by
  obtain ⟨heap, last⟩ := s
  cases last with
  | none => exact absurd (by simpa [Inv, invAux] using h) hne
  | some t =>
    simp only [Inv, invAux] at h
    rw [h.2.1]

/-- Pushing a sequence of fresh distinct elements with `lpush` prepends
them, reversed, to the member list. -/
theorem lpushAll_inv : ∀ (xs : List Ptr) (s : St) (ms : List Ptr),
    Inv s ms → (∀ x ∈ xs, x ∉ ms) → xs.Nodup →
    Inv (lpushAll s xs) (xs.reverse ++ ms) := by
  intro xs
  induction xs with
  | nil =>
    intro s ms h _ _
    simpa using h
  | cons x xs ih =>
    intro s ms h hfresh hnd
    have h1 : Inv (lpush s x) (x :: ms) :=
      lpush_inv s ms x h (hfresh x (List.mem_cons_self x xs))
    have h2 : ∀ y ∈ xs, y ∉ x :: ms := by
      intro y hy hmem
      rcases List.mem_cons.mp hmem with hh | hh
      · exact (List.nodup_cons.mp hnd).1 (hh ▸ hy)
      · exact hfresh y (List.mem_cons_of_mem x hy) hh
    have h3 := ih (lpush s x) (x :: ms) h1 h2 (List.nodup_cons.mp hnd).2
    have h4 : lpushAll s (x :: xs) = lpushAll (lpush s x) xs := rfl
    rw [h4, show (x :: xs).reverse ++ ms = xs.reverse ++ (x :: ms) from by simp]
    exact h3

/-- Popping `n` times from a ring of `n` members returns them in order
and empties the list. -/
theorem lpops_spec : ∀ (ms : List Ptr) (s : St), Inv s ms →
    (lpops s ms.length).1 = ms.map some ∧ Inv (lpops s ms.length).2 [] := by
  intro ms
  induction ms with
  | nil => exact fun s h => ⟨rfl, h⟩
  | cons m tl ih =>
    intro s h
    obtain ⟨h1, h2⟩ := lpop_inv s m tl h
    have h3 := ih (lpop s).2 h2
    refine ⟨?_, h3.2⟩
    show ((lpop s).1 :: (lpops (lpop s).2 tl.length).1) = some m :: tl.map some
    rw [h1, h3.1]

/-- Iterated rotation: `rotN` keeps the heap intact and rotates the
member list. -/
theorem rotN_inv : ∀ (k : Nat) (s : St) (ms : List Ptr), Inv s ms → ms ≠ [] →
    Inv (rotN s k) (ms.rotate k) ∧ (rotN s k).heap = s.heap := by
  intro k
  induction k with
  | zero =>
    intro s ms h hne
    exact ⟨by simpa using h, rfl⟩
  | succ n ih =>
    intro s ms h hne
    obtain ⟨h1, h2⟩ := ih s ms h hne
    have hne' : ms.rotate n ≠ [] := by
      intro hh
      apply hne
      have := List.length_rotate ms n
      rw [hh] at this
      exact List.length_eq_zero.mp this.symm
    obtain ⟨h3, h4⟩ := lpoprpush_inv (rotN s n) (ms.rotate n) h1 hne'
    have h5 : rotN s (n + 1) = lpoprpush (rotN s n) := rfl
    refine ⟨?_, by rw [h5, h4, h2]⟩
    rw [h5, ← List.rotate_rotate]
    exact h3

theorem lpop_empty (s : St) (h : s.last = none) : lpop s = (none, s) := by
  obtain ⟨heap, last⟩ := s
  obtain rfl : last = none := h
  rfl

/-- `lpop` never writes the popped node's own next-slot. -/
theorem lpop_keeps_removed_slot (s : St) (h : Ptr) (s' : St)
    (heq : lpop s = (some h, s')) : s'.heap h = s.heap h := by
  obtain ⟨heap, last⟩ := s
  cases last with
  | none =>
    rw [lpop_empty _ rfl] at heq
    exact absurd (congrArg Prod.fst heq) (by simp)
  | some t =>
    by_cases hc : t = heap t
    · simp only [lpop, if_pos hc] at heq
      rw [Prod.mk.injEq] at heq
      obtain ⟨-, heq2⟩ := heq
      rw [← heq2]
    · simp only [lpop, if_neg hc] at heq
      rw [Prod.mk.injEq] at heq
      obtain ⟨heq1, heq2⟩ := heq
      obtain rfl : heap t = h := Option.some.inj heq1
      rw [← heq2]
      exact setNext_other _ _ _ _ (fun hh => hc hh.symm)

/-- `remove` never writes the removed node's own next-slot. -/
theorem remove_keeps_removed_slot (s : St) (e : Ptr) (fuel : Nat) (r : Ptr) (s' : St)
    (heq : remove s e fuel = some (some r, s')) : s'.heap r = s.heap r := by
  obtain ⟨heap, last⟩ := s
  cases last with
  | none =>
    simp only [remove] at heq
    have := congrArg Prod.fst (Option.some.inj heq)
    exact absurd this (by simp)
  | some t =>
    by_cases hc : heap t = e
    · simp only [remove, if_pos hc] at heq
      exact lpop_keeps_removed_slot _ r s' (Option.some.inj heq)
    · cases hfp : find_previous_aux heap e t t fuel with
      | none =>
        simp only [remove, if_neg hc, hfp] at heq
        exact Option.noConfusion heq
      | some o =>
        cases o with
        | none =>
          simp only [remove, if_neg hc, hfp] at heq
          have := congrArg Prod.fst (Option.some.inj heq)
          exact absurd this (by simp)
        | some x =>
          simp only [remove, if_neg hc, hfp] at heq
          have hx : heap x = e := aux_found_heap fuel heap e t t x hfp
          have h1 := Option.some.inj heq
          rw [Prod.mk.injEq] at h1
          obtain ⟨h2, h3⟩ := h1
          obtain rfl : e = r := Option.some.inj h2
          rw [← h3]
          by_cases hex : e = x
          · subst hex
            rw [show (⟨setNext heap e (heap (heap e)), some t⟩ : St).heap e =
              setNext heap e (heap (heap e)) e from rfl, setNext_same]
            exact congrArg heap hx
          · exact setNext_other _ _ _ _ hex

/-! ## Claims -/

/-- Claim C7: every query or removal operation applied to an empty list
(`lpop`, `rpop`, `lpeek`, `rpeek`, `find`, `remove`) returns an absence
indicator, never an error, and leaves the list empty and unchanged. -/
theorem C7_empty_ops (s : St) (e : Ptr) (fuel : Nat) (h : s.last = none) :
    is_empty s = true ∧ lpop s = (none, s) ∧ rpop s fuel = some (none, s) ∧
    lpeek s = none ∧ rpeek s = none ∧ find s e fuel = some none ∧
    remove s e fuel = some (none, s) := by
  obtain ⟨heap, last⟩ := s
  obtain rfl : last = none := h
  exact ⟨rfl, rfl, rfl, rfl, rfl, rfl, rfl⟩

theorem C7_empty_ops_witness :
    is_empty exEmpty = true ∧ lpop exEmpty = (none, exEmpty) ∧
    rpop exEmpty 3 = some (none, exEmpty) ∧ lpeek exEmpty = none ∧
    rpeek exEmpty = none ∧ find exEmpty 7 3 = some none ∧
    remove exEmpty 7 3 = some (none, exEmpty) :=
  C7_empty_ops exEmpty 7 3 rfl

/-- Claim C4: on every reachable list state, `remove(head)` produces the
identical return value and resulting state as `lpop()` (the code calls
`lpop` in that case), and `remove(tail)` is identical to `rpop()` (the
code implements `rpop` as `remove(tail)`); on the empty list all three
agree as well. -/
theorem C4_remove_head_tail :
    (∀ (s : St) (e : Ptr) (fuel : Nat), s.last = none →
      remove s e fuel = some (lpop s) ∧ rpop s fuel = some (lpop s)) ∧
    (∀ (s : St) (t : Ptr) (fuel : Nat), s.last = some t →
      remove s (s.heap t) fuel = some (lpop s) ∧ remove s t fuel = rpop s fuel) := by
  constructor
  · intro s e fuel h
    obtain ⟨heap, last⟩ := s
    obtain rfl : last = none := h
    exact ⟨rfl, rfl⟩
  · intro s t fuel h
    obtain ⟨heap, last⟩ := s
    obtain rfl : last = some t := h
    constructor
    · show (if heap t = heap t then some (lpop ⟨heap, some t⟩) else _) =
        some (lpop ⟨heap, some t⟩)
      rw [if_pos rfl]
    · rfl

theorem C4_remove_head_tail_witness :
    remove exTwo (exTwo.heap 2) 5 = some (lpop exTwo) ∧
    remove exTwo 2 5 = rpop exTwo 5 :=
  C4_remove_head_tail.2 exTwo 2 5 rfl

/-- Claim C8: whenever `lpop` or `remove` removes a node, the removed
node's own next-slot is not cleared or rewritten: it keeps the value it
had while the node was a member. -/
theorem C8_stale_slot :
    (∀ (s : St) (h : Ptr) (s' : St), lpop s = (some h, s') →
      s'.heap h = s.heap h) ∧
    (∀ (s : St) (e : Ptr) (fuel : Nat) (r : Ptr) (s' : St),
      remove s e fuel = some (some r, s') → s'.heap r = s.heap r) :=
  ⟨lpop_keeps_removed_slot, remove_keeps_removed_slot⟩

theorem C8_stale_slot_witness :
    (lpop exTwo).2.heap 1 = exTwo.heap 1 ∧
    ((rpopTwo.map Prod.snd).getD exEmpty).heap 2 = exTwo.heap 2 :=
  ⟨C8_stale_slot.1 exTwo 1 (lpop exTwo).2 rfl,
   C8_stale_slot.2 exTwo 2 5 2 ((rpopTwo.map Prod.snd).getD exEmpty) rfl⟩

/-- Claim C9: on a non-empty well-formed list, for an element that is not
the head and not a member, `remove` and `find` return the absence
indicator and leave the entire list state unchanged (the state returned
is the input state itself). -/
theorem C9_remove_nonmember (s : St) (ms : List Ptr) (t e : Ptr) (fuel : Nat)
    (hInv : Inv s ms) (hlast : s.last = some t) (hmem : e ∉ ms)
    (hhead : e ≠ s.heap t) (hf : ms.length ≤ fuel) :
    remove s e fuel = some (none, s) ∧ find s e fuel = some none := by
  obtain ⟨heap, last⟩ := s
  obtain rfl : last = some t := hlast
  simp only [Inv, invAux] at hInv
  obtain ⟨hne, hl, hnd, hw⟩ := hInv
  have hscan : find_previous_aux heap e t t fuel = some none :=
    inv_scan_not_mem heap t ms e fuel hne hl hnd hw hmem hf
  constructor
  · show (if heap t = e then some (lpop ⟨heap, some t⟩)
      else match find_previous_aux heap e t t fuel with
        | none => none
        | some none => some (none, ⟨heap, some t⟩)
        | some (some x) =>
          some (some e, ⟨setNext heap x (heap (heap x)), some t⟩)) =
      some (none, (⟨heap, some t⟩ : St))
    rw [if_neg (fun hh => hhead hh.symm), hscan]
  · show (match find_previous_aux heap e t t fuel with
      | none => none
      | some none => some none
      | some (some x) => some (some (heap x))) = some none
    rw [hscan]

theorem C9_remove_nonmember_witness :
    remove exTwo 7 5 = some (none, exTwo) ∧ find exTwo 7 5 = some none :=
  C9_remove_nonmember exTwo [1, 2] 2 7 5 (by decide) rfl (by decide)
    (by decide) (by decide)

/-- Claim C10: on every state satisfying the ring invariant, the scanning
loop of `find_previous` terminates (with fuel at least the member count it
returns a result instead of running out), hence `find`, `remove` and
`rpop` are total on such states. -/
theorem C10_scan_terminates (s : St) (ms : List Ptr) (fuel : Nat)
    (hInv : Inv s ms) (hf : ms.length ≤ fuel) :
    ∀ e, (∃ r, find_previous s e fuel = some r) ∧
      (∃ r, find s e fuel = some r) ∧ (∃ r, remove s e fuel = some r) ∧
      (∃ r, rpop s fuel = some r) := by
  obtain ⟨heap, last⟩ := s
  cases last with
  | none => exact fun e => ⟨⟨none, rfl⟩, ⟨none, rfl⟩, ⟨(none, _), rfl⟩, ⟨(none, _), rfl⟩⟩
  | some t =>
    simp only [Inv, invAux] at hInv
    obtain ⟨hne, hl, hnd, hw⟩ := hInv
    have hscan : ∀ e, ∃ r, find_previous_aux heap e t t fuel = some r := by
      intro e
      by_cases hm : e ∈ ms
      · obtain ⟨p, hp, -⟩ := inv_scan_mem heap t ms e fuel hl hnd hw hm hf
        exact ⟨some p, hp⟩
      · exact ⟨none, inv_scan_not_mem heap t ms e fuel hne hl hnd hw hm hf⟩
    have hrem : ∀ e, ∃ r, remove ⟨heap, some t⟩ e fuel = some r := by
      intro e
      by_cases hc : heap t = e
      · exact ⟨lpop ⟨heap, some t⟩, by simp only [remove, if_pos hc]⟩
      · obtain ⟨r, hr⟩ := hscan e
        cases r with
        | none => exact ⟨(none, ⟨heap, some t⟩), by simp only [remove, if_neg hc, hr]⟩
        | some x =>
          exact ⟨(some e, ⟨setNext heap x (heap (heap x)), some t⟩),
            by simp only [remove, if_neg hc, hr]⟩
    intro e
    refine ⟨hscan e, ?_, hrem e, ?_⟩
    · obtain ⟨r, hr⟩ := hscan e
      cases r with
      | none => exact ⟨none, by simp only [find, find_previous, hr]⟩
      | some x => exact ⟨some (heap x), by simp only [find, find_previous, hr]⟩
    · obtain ⟨r, hr⟩ := hrem t
      exact ⟨r, hr⟩

theorem C10_scan_terminates_witness :
    (∃ r, find_previous exTwo 7 5 = some r) ∧ (∃ r, find exTwo 7 5 = some r) ∧
    (∃ r, remove exTwo 7 5 = some r) ∧ (∃ r, rpop exTwo 5 = some r) :=
  C10_scan_terminates exTwo [1, 2] 5 (by decide) (by decide) 7

/-- Claim C3, counterexample: on the well-formed list `[1, 2]`, the member
`1` has ring-successor `2` (its next-slot names `2`), yet `find` returns
`1` itself, not the successor.  `find` post-composes `find_previous` with
`x.next()`, which is the found element, not the element's successor. -/
theorem C3_find_not_successor :
    Inv exTwo [1, 2] ∧ (1 : Ptr) ∈ ([1, 2] : List Ptr) ∧ exTwo.heap 1 = 2 ∧
    find exTwo 1 5 = some (some 1) ∧
    find exTwo 1 5 ≠ some (some (exTwo.heap 1)) := by
  decide

/-- Claim C3, amended: `find e` returns absent when `e` is not a member
(in particular when it was never inserted), and returns `e` itself —
confirming membership — when `e` is currently a member. -/
theorem C3_find_membership (s : St) (ms : List Ptr) (e : Ptr) (fuel : Nat)
    (hInv : Inv s ms) (hf : ms.length ≤ fuel) :
    (e ∉ ms → find s e fuel = some none) ∧
    (e ∈ ms → find s e fuel = some (some e)) := by
  obtain ⟨heap, last⟩ := s
  cases last with
  | none =>
    obtain rfl : ms = [] := by simpa [Inv, invAux] using hInv
    exact ⟨fun _ => rfl, fun hh => absurd hh (List.not_mem_nil e)⟩
  | some t =>
    simp only [Inv, invAux] at hInv
    obtain ⟨hne, hl, hnd, hw⟩ := hInv
    constructor
    · intro hm
      have hscan := inv_scan_not_mem heap t ms e fuel hne hl hnd hw hm hf
      show (match find_previous_aux heap e t t fuel with
        | none => none
        | some none => some none
        | some (some x) => some (some (heap x))) = some none
      rw [hscan]
    · intro hm
      obtain ⟨p, hp, hpe⟩ := inv_scan_mem heap t ms e fuel hl hnd hw hm hf
      show (match find_previous_aux heap e t t fuel with
        | none => none
        | some none => some none
        | some (some x) => some (some (heap x))) = some (some e)
      rw [hp]
      show some (some (heap p)) = some (some e)
      rw [hpe]

theorem C3_find_membership_witness :
    find exTwo 7 5 = some none ∧ find exTwo 1 5 = some (some 1) :=
  ⟨(C3_find_membership exTwo [1, 2] 7 5 (by decide) (by decide)).1 (by decide),
   (C3_find_membership exTwo [1, 2] 1 5 (by decide) (by decide)).2 (by decide)⟩

/-- Claim C5: pushing any sequence of distinct nodes with `lpush` onto an
initially empty list and then popping that many times with `lpop` returns
exactly those nodes in reverse insertion order, after which the list is
empty and a further `lpop` returns absent. -/
theorem C5_lifo (xs : List Ptr) (h0fn : Ptr → Ptr) (hnd : xs.Nodup) :
    (lpops (lpushAll (new h0fn) xs) xs.length).1 = xs.reverse.map some ∧
    is_empty (lpops (lpushAll (new h0fn) xs) xs.length).2 = true ∧
    lpop (lpops (lpushAll (new h0fn) xs) xs.length).2 =
      (none, (lpops (lpushAll (new h0fn) xs) xs.length).2) := by
  have h1 : Inv (new h0fn) [] := by simp [Inv, invAux, new]
  have h2 := lpushAll_inv xs (new h0fn) [] h1 (by simp) hnd
  rw [List.append_nil] at h2
  have h3 := lpops_spec xs.reverse (lpushAll (new h0fn) xs) h2
  rw [List.length_reverse] at h3
  obtain ⟨h4, h5⟩ := h3
  have h6 := inv_nil_last _ h5
  refine ⟨h4, ?_, lpop_empty _ h6⟩
  show ((lpops (lpushAll (new h0fn) xs) xs.length).2).last.isNone = true
  rw [h6]
  rfl

theorem C5_lifo_witness :
    (lpops (lpushAll (new exHeap) [1, 2, 3]) 3).1 = [some 3, some 2, some 1] ∧
    is_empty (lpops (lpushAll (new exHeap) [1, 2, 3]) 3).2 = true ∧
    lpop (lpops (lpushAll (new exHeap) [1, 2, 3]) 3).2 =
      (none, (lpops (lpushAll (new exHeap) [1, 2, 3]) 3).2) :=
  C5_lifo [1, 2, 3] exHeap (by decide)

/-- Claim C6: on a well-formed list of n ≥ 2 members `[h0, ..., h(n-1)]`,
one `lpoprpush` yields the member order rotated by one (`ms.rotate 1` =
`[h1, ..., h(n-1), h0]`) with no next-slot rewired (the heap is equal, only
the sentinel changed), the member count is unchanged, and n applications
restore the original state exactly. -/
theorem C6_rotation (s : St) (ms : List Ptr) (hInv : Inv s ms)
    (h2 : 2 ≤ ms.length) :
    Inv (lpoprpush s) (ms.rotate 1) ∧ (lpoprpush s).heap = s.heap ∧
    (ms.rotate 1).length = ms.length ∧ rotN s ms.length = s := by
  have hne : ms ≠ [] := by
    intro hh
    rw [hh] at h2
    simp at h2
  obtain ⟨ha, hb⟩ := lpoprpush_inv s ms hInv hne
  refine ⟨ha, hb, List.length_rotate ms 1, ?_⟩
  obtain ⟨hc, hd⟩ := rotN_inv ms.length s ms hInv hne
  rw [List.rotate_length] at hc
  exact st_ext _ _ hd
    (by rw [inv_last_getLast _ ms hc hne, inv_last_getLast s ms hInv hne])

theorem C6_rotation_witness :
    Inv (lpoprpush exTwo) (([1, 2] : List Ptr).rotate 1) ∧
    (lpoprpush exTwo).heap = exTwo.heap ∧
    (([1, 2] : List Ptr).rotate 1).length = ([1, 2] : List Ptr).length ∧
    rotN exTwo 2 = exTwo :=
  C6_rotation exTwo [1, 2] (by decide) (by decide)

/-- Claim C1 fails on the code: `exTwo` is the well-formed two-member list
`[1, 2]` (reached by `rpush 1; rpush 2` from empty), and `rpop` returns
member `2`, but the resulting state still has the sentinel naming the
removed node `2` (`remove` never updates `last` when the tail is removed),
and no member list at all satisfies the ring invariant afterwards: the
invariant is not preserved by `rpop`/`remove`-of-tail. -/
theorem C1_rpop_breaks_invariant :
    Inv exTwo [1, 2] ∧ rpopTwo.map Prod.fst = some (some 2) ∧
    rpopTwoSt.last = some 2 ∧ rpopTwoSt.heap 1 = 1 ∧ rpopTwoSt.heap 2 = 1 ∧
    ∀ ms, ¬ Inv rpopTwoSt ms := by
  refine ⟨by decide, by decide, by decide, by decide, by decide, ?_⟩
  intro ms h
  have hlast : rpopTwoSt.last = some 2 := by decide
  unfold Inv at h
  rw [hlast] at h
  simp only [invAux] at h
  obtain ⟨hne, hl, hnd, hw⟩ := h
  cases ms with
  | nil => exact hne rfl
  | cons m tl =>
    obtain ⟨h1, hw2⟩ := hw
    have hh2 : rpopTwoSt.heap 2 = 1 := by decide
    rw [hh2] at h1
    obtain rfl : m = 1 := h1.symm
    cases tl with
    | nil =>
      rw [getLast?_eq_lastD] at hl
      exact absurd (Option.some.inj hl) (by decide)
    | cons m2 tl2 =>
      obtain ⟨h3, -⟩ := hw2
      have hh1 : rpopTwoSt.heap 1 = 1 := by decide
      rw [hh1] at h3
      obtain rfl : m2 = 1 := h3.symm
      simp at hnd

/-- Claim C2 fails on the code: starting from the well-formed one-member
list `[1]` (sentinel naming `1`), `rpush 2` then `rpop` does return `2`,
but the resulting state is not the original: its sentinel still names the
removed node `2` (so `rpeek` reports `2`), while the original named `1`. -/
theorem C2_rpush_rpop_not_restore :
    Inv exOne [1] ∧
    (rpop (rpush exOne 2) 5).map (fun p => (p.1, p.2.last, rpeek p.2)) =
      some (some 2, some 2, some 2) ∧
    exOne.last = some 1 ∧ rpeek exOne = some 1 := by
  decide

end Clist
